import Mathlib

/-!
Shallow embedding of the paclogrs repository (src/cli.rs, src/main.rs,
src/paclog.rs), a pacman-log pretty printer.

Modelling conventions:
* Strings are `List Char` (`Str`).
* The two lazily compiled regexes (`PACKAGE_CHANGE_REGEX` and
  `PACKAGE_VERSION_REGEX` in src/paclog.rs) are embedded as deterministic
  matchers implementing the leftmost-first, greedy backtracking semantics of
  the Rust `regex` crate for these two concrete patterns.  `.` never matches a
  newline, `captures` searches for the leftmost match, and greedy quantifiers
  prefer the longest alternative first.
* `chrono`'s `DateTime::parse_from_str(_, "%Y-%m-%dT%H:%M:%S%z")` and
  `NaiveDateTime::parse_from_str(_, "%Y-%m-%d %H:%M")` are embedded as strict
  format readers: `%Y` is up to four digits, the other numeric fields up to
  two digits (greedy, at least one), `%z` is a mandatory sign, two offset-hour
  digits, an optional colon, and two offset-minute digits; the whole input
  must be consumed and the calendar fields must be in range.
* The process-local timezone (`chrono::Local`) is modelled as a fixed offset
  of `localMin` minutes from UTC, threaded through as a parameter;
  `with_timezone(&Local)` keeps the instant and re-expresses it as local wall
  time via civil-calendar day arithmetic.
-/

set_option maxRecDepth 100000

abbrev Str := List Char

/-- ASCII alphabetic, the POSIX class `[[:alpha:]]` used for the action word. -/
def isAlphaCh (c : Char) : Bool := (97 ≤ c.toNat && c.toNat ≤ 122) || (65 ≤ c.toNat && c.toNat ≤ 90)

/-- ASCII lowercase letter. -/
def isLowerCh (c : Char) : Bool := 97 ≤ c.toNat && c.toNat ≤ 122

/-- ASCII digit. -/
def isDigitCh (c : Char) : Bool := 48 ≤ c.toNat && c.toNat ≤ 57

/-- First-character class of a package name: `[a-z0-9@_+]`. -/
def isNameHead (c : Char) : Bool := isLowerCh c || isDigitCh c || c == '@' || c == '_' || c == '+'

/-- Continuation class of a package name: `[a-z0-9@._+-]`. -/
def isNameTail (c : Char) : Bool := isNameHead c || c == '.' || c == '-'

/-- Version-token class: `[a-z0-9.:+-]`. -/
def isVerCh (c : Char) : Bool :=
  isLowerCh c || isDigitCh c || c == '.' || c == ':' || c == '+' || c == '-'

/-- What `.` matches in the Rust regex crate: any character except a newline. -/
def notNl (c : Char) : Bool := c != '\n'

/-- All ways a greedy `.*` can split a string, longest prefix first, the
prefix never containing a newline.  This is the preference order in which a
backtracking engine visits the alternatives of a greedy `.*`. -/
def dotStarSplits : Str → List (Str × Str)
  | [] => [([], [])]
  | c :: cs =>
    (if notNl c then (dotStarSplits cs).map (fun p => (c :: p.1, p.2)) else []) ++ [([], c :: cs)]

/-- Strip a literal from the front of a string (`none` when it is not there). -/
def dropLead : Str → Str → Option Str
  | [], s => some s
  | p :: ps, c :: cs => if p == c then dropLead ps cs else none
  | _ :: _, [] => none

/-- The named capture groups of `PACKAGE_CHANGE_REGEX`. -/
structure Caps where
  datetime : Str
  action : Str
  package : Str
  version : Str
deriving DecidableEq

/-- The literal `] [ALPM] ` separating the datetime bracket from the action. -/
def alpmSep : Str := [']', ' ', '[', 'A', 'L', 'P', 'M', ']', ' ']

/-- The literal ` -> ` separating the two version tokens. -/
def arrowSep : Str := [' ', '-', '>', ' ']

/-- Match the final `\((?P<version>.*)\)` of `PACKAGE_CHANGE_REGEX` against
the text after the opening parenthesis: greedy `.*`, so the capture runs to
the last closing parenthesis; the pattern ends there, so trailing text after
that parenthesis is allowed. -/
def matchVer (cs : Str) : Option Str :=
  (dotStarSplits cs).findSome? fun p =>
    match p.2 with
    | c :: _ => if c == ')' then some p.1 else none
    | [] => none

/-- Match `(?P<action>[[:alpha:]]+) (?P<package>[a-z0-9@_+][a-z0-9@._+-]*) \(`
followed by the version part, against the text after `] [ALPM] `.  The two
greedy character-class runs need no backtracking: the character required after
each run (a space) belongs to neither class. -/
def matchActionOn (cs : Str) : Option (Str × Str × Str) :=
  if (cs.takeWhile isAlphaCh).isEmpty then none
  else
    match cs.drop (cs.takeWhile isAlphaCh).length with
    | sp :: c :: rest2 =>
      if sp == ' ' && isNameHead c then
        match rest2.drop (rest2.takeWhile isNameTail).length with
        | sp2 :: op :: rest4 =>
          if sp2 == ' ' && op == '(' then
            (matchVer rest4).map fun v =>
              (cs.takeWhile isAlphaCh, c :: rest2.takeWhile isNameTail, v)
          else none
        | _ => none
      else none
    | _ => none

/-- Match the body of `PACKAGE_CHANGE_REGEX` after the opening `\[`:
a greedy `(?P<datetime>.*)`, the literal `] [ALPM] `, then action, package and
version.  The splits are tried in greedy preference order. -/
def matchBody (cs : Str) : Option Caps :=
  (dotStarSplits cs).findSome? fun p =>
    match dropLead alpmSep p.2 with
    | some rest => (matchActionOn rest).map fun t => ⟨p.1, t.1, t.2.1, t.2.2⟩
    | none => none

/-- `PACKAGE_CHANGE_REGEX.captures(line)`: leftmost-first search; the pattern
starts with a literal `\[`, so candidate start positions are the occurrences
of `[`, tried left to right. -/
def lineCaptures : Str → Option Caps
  | [] => none
  | c :: cs => (if c == '[' then matchBody cs else none).orElse fun _ => lineCaptures cs

/-- `PACKAGE_VERSION_REGEX.captures`: `(^[a-z0-9.:+-]+)(?: -> ([a-z0-9.:+-]+$))?`.
The first group is anchored at the start, so only position 0 can match; the
group is greedy and the optional group always succeeds (matching nothing) at
the maximal first token, so the engine never shortens the first token.  The
second token must run to the end of the field (`$`). -/
def versionCaptures (v : Str) : Option (Str × Option Str) :=
  if (v.takeWhile isVerCh).isEmpty then none
  else
    match dropLead arrowSep (v.drop (v.takeWhile isVerCh).length) with
    | some r2 =>
      if !r2.isEmpty && r2.all isVerCh then some (v.takeWhile isVerCh, some r2)
      else some (v.takeWhile isVerCh, none)
    | none => some (v.takeWhile isVerCh, none)

/-- A parsed calendar date-time, the common content of `chrono`'s
`DateTime<Local>` and `NaiveDateTime` that the program observes (display is
`%Y-%m-%d %H:%M`, filtering uses the calendar date). -/
structure DT where
  year : Int
  month : Nat
  day : Nat
  hour : Nat
  minute : Nat
  second : Nat
deriving DecidableEq

/-- Read a run of decimal digits, greedy, at most `maxN`, at least one,
accumulating the value; mirrors `chrono`'s numeric-field scanner. -/
def takeDigitsAux : Nat → Nat → Str → Nat × Str
  | 0, acc, s => (acc, s)
  | _ + 1, acc, [] => (acc, [])
  | k + 1, acc, c :: s =>
    if isDigitCh c then takeDigitsAux k (acc * 10 + (c.toNat - 48)) s else (acc, c :: s)

/-- Read one numeric field of a `chrono` format string. -/
def takeDigits (maxN : Nat) : Str → Option (Nat × Str)
  | c :: s => if isDigitCh c then some (takeDigitsAux (maxN - 1) (c.toNat - 48) s) else none
  | [] => none

/-- Require one literal character. -/
def expectCh (c : Char) : Str → Option Str
  | d :: s => if c == d then some s else none
  | [] => none

/-- Gregorian leap year. -/
def isLeapYear (y : Nat) : Bool := y % 4 == 0 && (y % 100 != 0 || y % 400 == 0)

/-- Number of days in a month. -/
def daysInMonth (y m : Nat) : Nat :=
  if m == 2 then (if isLeapYear y then 29 else 28)
  else if m == 4 || m == 6 || m == 9 || m == 11 then 30
  else 31

/-- `chrono`'s range validation of a parsed calendar date. -/
def validYMD (y m d : Nat) : Bool := 1 ≤ m && m ≤ 12 && 1 ≤ d && d ≤ daysInMonth y m

/-- `chrono`'s range validation of a parsed time of day. -/
def validHMS (h mi s : Nat) : Bool := h < 24 && mi < 60 && s < 60

/-- `DateTime::parse_from_str(s, "%Y-%m-%dT%H:%M:%S%z")`: on success, the
wall-clock fields together with the numeric UTC offset in minutes. -/
def skipColon : Str → Str
  | c :: r => if c == ':' then r else c :: r
  | [] => []

/-- The sign of the `%z` offset field. -/
def parseSign : Str → Option (Int × Str)
  | c :: r => if c == '+' then some (1, r) else if c == '-' then some (-1, r) else none
  | [] => none

/-- The tail of the ISO format after the seconds field: `%z`, a sign, two
offset-hour digits, an optional colon, two offset-minute digits. -/
def parseZOff (s : Str) : Option (Int × Str) :=
  match parseSign s with
  | none => none
  | some (sgn, s1) =>
    match takeDigits 2 s1 with
    | none => none
    | some (oh, s2) =>
      match takeDigits 2 (skipColon s2) with
      | none => none
      | some (om, s3) =>
        if oh < 24 && om < 60 then some (sgn * ((oh : Int) * 60 + (om : Int)), s3) else none

/-- The common `%Y-%m-%d` front of both formats. -/
def parseYMD (s : Str) : Option (Nat × Nat × Nat × Str) :=
  match takeDigits 4 s with
  | none => none
  | some (y, s1) =>
    match expectCh '-' s1 with
    | none => none
    | some s2 =>
      match takeDigits 2 s2 with
      | none => none
      | some (mo, s3) =>
        match expectCh '-' s3 with
        | none => none
        | some s4 =>
          match takeDigits 2 s4 with
          | none => none
          | some (d, s5) => some (y, mo, d, s5)

/-- An `%H:%M` group. -/
def parseHM (s : Str) : Option (Nat × Nat × Str) :=
  match takeDigits 2 s with
  | none => none
  | some (h, s1) =>
    match expectCh ':' s1 with
    | none => none
    | some s2 =>
      match takeDigits 2 s2 with
      | none => none
      | some (mi, s3) => some (h, mi, s3)

/-- `DateTime::parse_from_str(s, "%Y-%m-%dT%H:%M:%S%z")`: on success, the
wall-clock fields together with the numeric UTC offset in minutes. -/
def parseIsoDT (s : Str) : Option (DT × Int) :=
  match parseYMD s with
  | none => none
  | some (y, mo, d, s1) =>
    match expectCh 'T' s1 with
    | none => none
    | some s2 =>
      match parseHM s2 with
      | none => none
      | some (h, mi, s3) =>
        match expectCh ':' s3 with
        | none => none
        | some s4 =>
          match takeDigits 2 s4 with
          | none => none
          | some (sec, s5) =>
            match parseZOff s5 with
            | none => none
            | some (off, s6) =>
              if s6.isEmpty && validYMD y mo d && validHMS h mi sec then
                some (⟨(y : Int), mo, d, h, mi, sec⟩, off)
              else none

/-- `NaiveDateTime::parse_from_str(s, "%Y-%m-%d %H:%M")` (seconds default 0). -/
def parseNaiveDT (s : Str) : Option DT :=
  match parseYMD s with
  | none => none
  | some (y, mo, d, s1) =>
    match expectCh ' ' s1 with
    | none => none
    | some s2 =>
      match parseHM s2 with
      | none => none
      | some (h, mi, s3) =>
        if s3.isEmpty && validYMD y mo d && validHMS h mi 0 then
          some ⟨(y : Int), mo, d, h, mi, 0⟩
        else none

/-- Days since 1970-01-01 of a civil date (floor-division civil calendar
arithmetic). -/
def daysFromCivil (y : Int) (m d : Nat) : Int :=
  let y2 : Int := if m ≤ 2 then y - 1 else y
  let era : Int := Int.ediv y2 400
  let yoe : Int := y2 - era * 400
  let mp : Int := Int.emod ((m : Int) + 9) 12
  let doy : Int := Int.ediv (153 * mp + 2) 5 + (d : Int) - 1
  let doe : Int := yoe * 365 + Int.ediv yoe 4 - Int.ediv yoe 100 + doy
  era * 146097 + doe - 719468

/-- Civil date of a day count since 1970-01-01. -/
def civilFromDays (z0 : Int) : Int × Nat × Nat :=
  let z := z0 + 719468
  let era := Int.ediv z 146097
  let doe := z - era * 146097
  let yoe := Int.ediv (doe - Int.ediv doe 1460 + Int.ediv doe 36524 - Int.ediv doe 146096) 365
  let y := yoe + era * 400
  let doy := doe - (365 * yoe + Int.ediv yoe 4 - Int.ediv yoe 100)
  let mp := Int.ediv (5 * doy + 2) 153
  let d := doy - Int.ediv (153 * mp + 2) 5 + 1
  let m := if mp < 10 then mp + 3 else mp - 9
  (if m ≤ 2 then y + 1 else y, m.toNat, d.toNat)

/-- `dt.with_timezone(&Local)` for a parsed wall time `dt` carrying numeric
offset `tzMin`: same instant, re-expressed at the local offset `localMin`. -/
def toLocalWall (dt : DT) (tzMin localMin : Int) : DT :=
  let total := daysFromCivil dt.year dt.month dt.day * 1440 + (dt.hour : Int) * 60
    + (dt.minute : Int) - tzMin + localMin
  let days := Int.ediv total 1440
  let rem := (Int.emod total 1440).toNat
  match civilFromDays days with
  | (y, m, d) => ⟨y, m, d, rem / 60, rem % 60, dt.second⟩

/-- The `PacmanDateTime` enum: a timezone-aware instant (stored here as its
local wall time, the only view the program takes of it) or a naive local
date-time. -/
inductive PacmanDateTime where
  | withTimezone (dt : DT)
  | withoutTimezone (dt : DT)
deriving DecidableEq

/-- The `PacmanAction` enum. -/
inductive PacmanAction where
  | installed
  | upgraded
  | downgraded
  | removed
deriving DecidableEq

/-- `PacmanAction::try_from(&str)` (case-sensitive). -/
def actionFromStr (s : Str) : Option PacmanAction :=
  if s == "installed".toList then some .installed
  else if s == "upgraded".toList then some .upgraded
  else if s == "downgraded".toList then some .downgraded
  else if s == "removed".toList then some .removed
  else none

/-- The datetime branch of `PackageChange::from_line`: try the ISO-8601
format with numeric offset first (converting to the local zone), then the
naive format, else fail. -/
def parsePacmanDateTime (s : Str) (localMin : Int) : Option PacmanDateTime :=
  match parseIsoDT s with
  | some (dt, tz) => some (.withTimezone (toLocalWall dt tz localMin))
  | none =>
    match parseNaiveDT s with
    | some dt => some (.withoutTimezone dt)
    | none => none

/-- User glob matching, the behaviour of the regex main.rs compiles from one
glob: `Regex::new(format ^ escaped-glob-with-star-as-dot-star $)` tested with
`is_match`.  Every character is literal except `*`, which matches any
sequence of non-newline characters; the match covers the whole name. -/
def globMatch : Str → Str → Bool
  | [], n => n.isEmpty
  | p :: ps, n =>
    if p == '*' then (dotStarSplits n).any fun q => globMatch ps q.2
    else
      match n with
      | c :: n2 => p == c && globMatch ps n2
      | [] => false

/-- `PackageChange::matches_any_regex`: any of the compiled patterns matches. -/
def matchesAnyGlob (name : Str) (globs : List Str) : Bool := globs.any fun g => globMatch g name

/-- The name-filter test of `from_line`: an empty pattern list accepts every
name, otherwise some pattern must match. -/
def nameAccepted (globs : List Str) (name : Str) : Bool :=
  globs.isEmpty || matchesAnyGlob name globs

/-- The `PackageChange` record. -/
structure PackageChange where
  name : Str
  datetime : PacmanDateTime
  action : PacmanAction
  previous_version : Option Str
  current_version : Option Str
deriving DecidableEq

/-- The distinct failure exits of `PackageChange::from_line` (the Rust code
returns `anyhow` errors; only the case distinction is observable). -/
inductive ParseError where
  | noCapture
  | nameMismatch
  | unknownAction
  | unparseableTimestamp
  | missingVersion
deriving DecidableEq

/-- The diagnostic line `from_line` prints to stdout when the datetime field
parses with neither format. -/
def diagMsg (dtStr : Str) : Str :=
  "Unable to parse datetime from `".toList ++ dtStr ++ ['`']

/-- `PackageChange::from_line`, together with the lines it prints to stdout.
Control flow follows src/paclog.rs lines 85-156: outer regex, name filter,
action word, datetime (printing a diagnostic when both formats fail), version
field, then the action-specific assignment of the two version tokens. -/
def fromLineFull (line : Str) (globs : List Str) (localMin : Int) :
    Except ParseError PackageChange × List Str :=
  match lineCaptures line with
  | none => (.error .noCapture, [])
  | some caps =>
    if !nameAccepted globs caps.package then (.error .nameMismatch, [])
    else
      match actionFromStr caps.action with
      | none => (.error .unknownAction, [])
      | some act =>
        match parsePacmanDateTime caps.datetime localMin with
        | none => (.error .unparseableTimestamp, [diagMsg caps.datetime])
        | some pdt =>
          match versionCaptures caps.version with
          | none => (.error .noCapture, [])
          | some (lv, rv) =>
            match act with
            | .installed => (.ok ⟨caps.package, pdt, .installed, none, some lv⟩, [])
            | .upgraded =>
              match rv with
              | some rv2 => (.ok ⟨caps.package, pdt, .upgraded, some lv, some rv2⟩, [])
              | none => (.error .missingVersion, [])
            | .downgraded =>
              match rv with
              | some rv2 => (.ok ⟨caps.package, pdt, .downgraded, some lv, some rv2⟩, [])
              | none => (.error .missingVersion, [])
            | .removed => (.ok ⟨caps.package, pdt, .removed, some lv, none⟩, [])

/-- `PackageChange::from_line`, result only. -/
def fromLine (line : Str) (globs : List Str) (localMin : Int) : Except ParseError PackageChange :=
  (fromLineFull line globs localMin).1

/-- A calendar date (`chrono::NaiveDate`). -/
structure Date where
  year : Int
  month : Nat
  day : Nat
deriving DecidableEq

/-- `PackageChange::date`: the local calendar date of the event. -/
def PackageChange.date (c : PackageChange) : Date :=
  match c.datetime with
  | .withTimezone dt => ⟨dt.year, dt.month, dt.day⟩
  | .withoutTimezone dt => ⟨dt.year, dt.month, dt.day⟩

/-- Strict comparison of calendar dates (`chrono::NaiveDate` ordering). -/
def dateLtb (a b : Date) : Bool :=
  if a.year < b.year then true
  else if b.year < a.year then false
  else if a.month < b.month then true
  else if b.month < a.month then false
  else decide (a.day < b.day)

/-- The date test in the main loop: keep a change unless a set `--before`
bound is exceeded or a set `--after` bound is undercut (both inclusive). -/
def keepChange (d : Date) (before after : Option Date) : Bool :=
  (match before with
   | some b => !dateLtb b d
   | none => true) &&
  (match after with
   | some a => !dateLtb d a
   | none => true)

/-- The date-filtering pass of `main`. -/
def filterByDate (cs : List PackageChange) (before after : Option Date) : List PackageChange :=
  cs.filter fun c => keepChange c.date before after

/-- `BufRead::lines(..).map_while(Result::ok)`: yield line contents up to
(and not including) the first read error; everything after it is dropped. -/
def mapWhileOk : List (Except Unit Str) → List Str
  | [] => []
  | .ok s :: rest => s :: mapWhileOk rest
  | .error _ :: _ => []

/-- The parsing loop of `get_changes`: parse every line, keep the successes
in order, drop the failures. -/
def processLines (lines : List Str) (globs : List Str) (localMin : Int) : List PackageChange :=
  lines.filterMap fun l => (fromLine l globs localMin).toOption

/-- `get_changes` after the log file has been opened: read lines until the
first read error, parse them, and return `Ok` with the collected changes. -/
def getChanges (lines : List (Except Unit Str)) (globs : List Str) (localMin : Int) :
    Except Unit (List PackageChange) :=
  .ok (processLines (mapWhileOk lines) globs localMin)

/-- One decimal digit character (values ten and above are out of the range
this model renders and default to the last digit). -/
def digitCh : Nat → Char
  | 0 => '0'
  | 1 => '1'
  | 2 => '2'
  | 3 => '3'
  | 4 => '4'
  | 5 => '5'
  | 6 => '6'
  | 7 => '7'
  | 8 => '8'
  | _ => '9'

/-- Zero-padded two-digit field of `chrono`'s `%m`, `%d`, `%H`, `%M`. -/
def pad2 (n : Nat) : Str := [digitCh (n / 10), digitCh (n % 10)]

/-- Zero-padded four-digit `%Y` (model valid for years 0 to 9999, the range
the four-digit datetime readers above can produce). -/
def pad4 (n : Nat) : Str := [digitCh (n / 1000 % 10), digitCh (n / 100 % 10), digitCh (n / 10 % 10), digitCh (n % 10)]

/-- The wall time the program displays: both `PacmanDateTime` variants are
formatted identically by the `Display` impl. -/
def PacmanDateTime.wall : PacmanDateTime → DT
  | .withTimezone dt => dt
  | .withoutTimezone dt => dt

/-- The `Display` impl of `PacmanDateTime`: `%Y-%m-%d %H:%M`. -/
def fmtDT (dt : DT) : Str :=
  pad4 dt.year.toNat ++ ['-'] ++ pad2 dt.month ++ ['-'] ++ pad2 dt.day
    ++ [' '] ++ pad2 dt.hour ++ [':'] ++ pad2 dt.minute

/-- The lowercase action word written by `print`. -/
def PacmanAction.word : PacmanAction → Str
  | .installed => "installed".toList
  | .upgraded => "upgraded".toList
  | .downgraded => "downgraded".toList
  | .removed => "removed".toList

/-- The version text written by `print` between the parentheses (the Rust
code unwraps the options; for events built by `from_line` they are present by
the action-specific rule). -/
def versionDisplay (c : PackageChange) : Str :=
  match c.action with
  | .installed => c.current_version.getD []
  | .upgraded => c.previous_version.getD [] ++ arrowSep ++ c.current_version.getD []
  | .downgraded => c.previous_version.getD [] ++ arrowSep ++ c.current_version.getD []
  | .removed => c.previous_version.getD []

/-- The bytes `print` writes with color disabled, without the final newline:
`[<ts>] <action> <name> (<versions>)`. -/
def renderNoNl (c : PackageChange) : Str :=
  '[' :: fmtDT c.datetime.wall ++ [']'] ++ ' ' :: c.action.word ++ ' ' :: c.name
    ++ [' ', '('] ++ versionDisplay c ++ [')']

/-- The full plain-mode output of `print` for one event. -/
def renderPlain (c : PackageChange) : Str := renderNoNl c ++ ['\n']

/-- The rendered line with the `[ALPM]` tag re-inserted after the timestamp
bracket, i.e. `[<ts>] [ALPM] <action> <name> (<versions>)`. -/
def renderRetagged (c : PackageChange) : Str :=
  '[' :: fmtDT c.datetime.wall ++ alpmSep ++ c.action.word ++ ' ' :: c.name
    ++ [' ', '('] ++ versionDisplay c ++ [')']

/-- Truncation of a wall time to minute precision. -/
def DT.truncMin (dt : DT) : DT := ⟨dt.year, dt.month, dt.day, dt.hour, dt.minute, 0⟩

deriving instance DecidableEq for Except

/-- The concrete upgrade line of the specification's main scenario. -/
def c1Line : Str := "[2024-03-01T10:00:00+0000] [ALPM] upgraded vim (9.0.1 -> 9.0.2)".toList

/-- The event the scenario line parses to (with the local zone at UTC). -/
def c1Event : PackageChange :=
  ⟨"vim".toList, .withTimezone ⟨2024, 3, 1, 10, 0, 0⟩, .upgraded,
    some "9.0.1".toList, some "9.0.2".toList⟩

/-- The expected plain-mode output of the scenario. -/
def c1Out : Str := "[2024-03-01 10:00] upgraded vim (9.0.1 -> 9.0.2)\n".toList

/-- An `upgraded` line whose version field has no second token. -/
def c3Line : Str := "[2024-03-01 10:00] [ALPM] upgraded vim (9.0.1)".toList

/-- A line whose timestamp field parses with neither datetime format. -/
def c7BadLine : Str := "[garbage] [ALPM] installed foo (1.0)".toList

/-- An `installed` line with extra content after the first version token. -/
def c10Line : Str := "[2024-03-01 10:00] [ALPM] installed htop (3.3.0 -> 3.4.0)".toList

/-- The event `c10Line` parses to. -/
def c10Event : PackageChange :=
  ⟨"htop".toList, .withoutTimezone ⟨2024, 3, 1, 10, 0, 0⟩, .installed,
    none, some "3.3.0".toList⟩

/-- The glob patterns of the specification's name-filter example. -/
def fooBaGlobs : List Str := ["foo".toList, "ba*".toList]

/-- An event dated 2024-01-15, for the date-filter scenario. -/
def c6Event : PackageChange :=
  ⟨"vim".toList, .withoutTimezone ⟨2024, 1, 15, 10, 0, 0⟩, .installed,
    none, some "9.0.1".toList⟩

/-- The whole-line failure cases the parser distinguishes require, per action,
these version tokens; this predicate says the version field lacks one of
them: no first token at all, or (for the two-token actions) no ` -> `-second
token running to the end of the field. -/
def requiredVersionMissing (act : PacmanAction) (v : Str) : Prop :=
  match act with
  | .installed => versionCaptures v = none
  | .removed => versionCaptures v = none
  | .upgraded => versionCaptures v = none ∨ ∃ t1, versionCaptures v = some (t1, none)
  | .downgraded => versionCaptures v = none ∨ ∃ t1, versionCaptures v = some (t1, none)

/-- A wall time within the range the fixed-width `%Y-%m-%d %H:%M` display of
this model renders faithfully: a valid calendar date with a four-digit year
and an in-range time of day. -/
def dtRenderable (dt : DT) : Prop :=
  0 ≤ dt.year ∧ dt.year ≤ 9999 ∧ validYMD dt.year.toNat dt.month dt.day = true ∧
    validHMS dt.hour dt.minute 0 = true

/-! ### General list toolkit -/

theorem first_occurrence {c : Char} : ∀ {x y x2 y2 : Str},
    x ++ c :: y = x2 ++ c :: y2 → c ∉ x → c ∉ x2 → x = x2 ∧ y = y2
  | [], y, [], y2, h, _, _ => by
    simp only [List.nil_append, List.cons.injEq] at h
    exact ⟨rfl, h.2⟩
  | [], y, b :: x2, y2, h, _, hx2 => by
    simp only [List.nil_append, List.cons_append, List.cons.injEq] at h
    exact absurd (h.1 ▸ List.mem_cons_self b x2) hx2
  | a :: x, y, [], y2, h, hx, _ => by
    simp only [List.cons_append, List.nil_append, List.cons.injEq] at h
    exact absurd (h.1.symm ▸ List.mem_cons_self a x) hx
  | a :: x, y, b :: x2, y2, h, hx, hx2 => by
    simp only [List.cons_append, List.cons.injEq] at h
    obtain ⟨rfl, h2⟩ := h
    have := first_occurrence h2 (fun hm => hx (List.mem_cons_of_mem _ hm))
      (fun hm => hx2 (List.mem_cons_of_mem _ hm))
    exact ⟨by rw [this.1], this.2⟩

theorem dropLead_eq_some_iff : ∀ {pre s r : Str}, dropLead pre s = some r ↔ s = pre ++ r
  | [], s, r => by simp [dropLead, eq_comm]
  | p :: ps, [], r => by simp [dropLead]
  | p :: ps, c :: cs, r => by
    by_cases hpc : p = c
    · subst hpc
      simp [dropLead, dropLead_eq_some_iff]
    · have hcp : ¬c = p := fun h => hpc h.symm
      simp [dropLead, beq_iff_eq, hpc, hcp]

theorem findSome?_eq_of_unique {α β : Type} {l : List α} {f : α → Option β} {a : α}
    (ha : a ∈ l) (hu : ∀ x ∈ l, x ≠ a → f x = none) : l.findSome? f = f a := by
  induction l with
  | nil => cases ha
  | cons x t ih =>
    by_cases hxa : x = a
    · subst hxa
      cases hfa : f x with
      | none =>
        have hall : ∀ y ∈ t, f y = none := fun y hy => by
          by_cases hyx : y = x
          · rw [hyx, hfa]
          · exact hu y (List.mem_cons_of_mem _ hy) hyx
        rw [List.findSome?_cons, hfa]
        show t.findSome? f = none
        exact List.findSome?_eq_none_iff.mpr hall
      | some b =>
        rw [List.findSome?_cons, hfa]
    · rw [List.findSome?_cons, hu x (List.mem_cons_self x t) hxa]
      show t.findSome? f = f a
      have hat : a ∈ t := by
        rcases List.mem_cons.mp ha with h | h
        · exact absurd h.symm hxa
        · exact h
      exact ih hat fun y hy hya => hu y (List.mem_cons_of_mem _ hy) hya

theorem exists_of_findSome?_eq_some {α β : Type} {l : List α} {f : α → Option β} {b : β}
    (h : l.findSome? f = some b) : ∃ a ∈ l, f a = some b := by
  induction l with
  | nil => simp [List.findSome?] at h
  | cons x t ih =>
    rw [List.findSome?_cons] at h
    rcases hfa : f x with _ | c
    · rw [hfa] at h
      obtain ⟨a, hal, hfa2⟩ := ih h
      exact ⟨a, List.mem_cons_of_mem _ hal, hfa2⟩
    · rw [hfa] at h
      exact ⟨x, List.mem_cons_self x t, hfa ▸ h⟩

theorem takeWhile_run {p : Char → Bool} : ∀ {xs : Str} (y : Char) (ys : Str),
    xs.all p = true → p y = false → (xs ++ y :: ys).takeWhile p = xs
  | [], y, ys, _, hy => by simp [List.takeWhile_cons, hy]
  | x :: xs, y, ys, hall, hy => by
    simp only [List.all_cons, Bool.and_eq_true] at hall
    simp [List.takeWhile_cons, hall.1, takeWhile_run y ys hall.2 hy]

/-! ### Structure of the greedy dot-star split list -/

theorem dotStarSplits_shape : ∀ {cs : Str} {p : Str × Str},
    p ∈ dotStarSplits cs → p.1 ++ p.2 = cs
  | [], p, hp => by
    simp only [dotStarSplits, List.mem_singleton] at hp
    simp [hp]
  | c :: cs, p, hp => by
    simp only [dotStarSplits] at hp
    cases hn : notNl c with
    | false =>
      simp only [hn] at hp
      simp only [Bool.false_eq_true, if_false, List.nil_append, List.mem_singleton] at hp
      simp [hp]
    | true =>
      simp only [hn, if_true, List.mem_append, List.mem_map, List.mem_singleton] at hp
      rcases hp with ⟨q, hq, rfl⟩ | rfl
      · simp [dotStarSplits_shape hq]
      · simp

theorem dotStarSplits_self_mem : ∀ {pre suf : Str},
    pre.all notNl = true → (pre, suf) ∈ dotStarSplits (pre ++ suf)
  | [], suf, _ => by
    cases suf with
    | nil => simp [dotStarSplits]
    | cons c cs => simp [dotStarSplits]
  | c :: pre, suf, hall => by
    simp only [List.all_cons, Bool.and_eq_true] at hall
    simp only [List.cons_append, dotStarSplits, hall.1, if_pos rfl]
    exact List.mem_append.mpr (Or.inl (List.mem_map.mpr
      ⟨(pre, suf), dotStarSplits_self_mem hall.2, rfl⟩))

theorem findSome?_dotStar_eq {β : Type} (f : Str × Str → Option β) (A suf : Str)
    (hA : A.all notNl = true)
    (hother : ∀ p : Str × Str, p.1 ++ p.2 = A ++ suf → p.2 ≠ suf → f p = none) :
    (dotStarSplits (A ++ suf)).findSome? f = f (A, suf) := by
  have hmem : ((A, suf) : Str × Str) ∈ dotStarSplits (A ++ suf) := dotStarSplits_self_mem hA
  apply @findSome?_eq_of_unique _ _ _ f (A, suf) hmem
  intro x hx hne
  have hsh := dotStarSplits_shape hx
  by_cases h2 : x.2 = suf
  · exfalso
    apply hne
    have h3 : x.1 ++ suf = A ++ suf := h2 ▸ hsh
    have h1 : x.1 = A := List.append_cancel_right h3
    have hx12 : x = (x.1, x.2) := rfl
    rw [hx12, h1, h2]
  · exact hother x hsh h2

/-! ### Character-class facts -/

theorem class_ne {p : Char → Bool} {c : Char} (hp : p c = true) {d : Char} (hd : p d = false) :
    c ≠ d := fun he => by rw [he, hd] at hp; cases hp

theorem ne_nil_of_not_isEmpty {l : Str} (h : ¬l.isEmpty = true) : l ≠ [] :=
  fun hn => h (by rw [hn]; rfl)

theorem beqFalseOfNe {c d : Char} (h : c ≠ d) : (c == d) = false :=
  beq_eq_false_iff_ne.mpr h

theorem notNl_of_ne {c : Char} (h : c ≠ '\n') : notNl c = true := by
  simp [notNl, bne, beqFalseOfNe h]

theorem notMem_of_all_class {p : Char → Bool} {l : Str} {d : Char}
    (h : l.all p = true) (hd : p d = false) : d ∉ l := fun hm => by
  have := List.all_eq_true.mp h d hm
  rw [hd] at this
  cases this

theorem all_weaken {p q : Char → Bool} {l : Str} (h : l.all p = true)
    (hpq : ∀ c, p c = true → q c = true) : l.all q = true :=
  List.all_eq_true.mpr fun c hc => hpq c (List.all_eq_true.mp h c hc)

theorem alpha_notNl : ∀ c, isAlphaCh c = true → notNl c = true :=
  fun _ h => notNl_of_ne (class_ne h (by decide))

theorem nameTail_notNl : ∀ c, isNameTail c = true → notNl c = true :=
  fun _ h => notNl_of_ne (class_ne h (by decide))

theorem verCh_notNl : ∀ c, isVerCh c = true → notNl c = true :=
  fun _ h => notNl_of_ne (class_ne h (by decide))

/-! ### Uniqueness of the separator occurrence and matcher evaluation -/

theorem sep_unique {A T u r : Str} (hA : ']' ∉ A) (hT : ']' ∉ T)
    (huv : u ++ (alpmSep ++ r) = A ++ (alpmSep ++ T)) : u = A ∧ r = T := by
  have hcount := congrArg (List.count ']') huv
  simp only [List.count_append] at hcount
  have hA0 : List.count ']' A = 0 := List.count_eq_zero.mpr hA
  have hT0 : List.count ']' T = 0 := List.count_eq_zero.mpr hT
  have hsep : List.count ']' alpmSep = 2 := by decide
  rw [hA0, hT0, hsep] at hcount
  have hu0 : ']' ∉ u := List.count_eq_zero.mp (by omega)
  have huv2 : u ++ ']' :: ([' ', '[', 'A', 'L', 'P', 'M', ']', ' '] ++ r)
      = A ++ ']' :: ([' ', '[', 'A', 'L', 'P', 'M', ']', ' '] ++ T) := huv
  have hfo := first_occurrence huv2 hu0 hA
  exact ⟨hfo.1, List.append_cancel_left hfo.2⟩

theorem paren_unique {V u r : Str} (hV : ')' ∉ V)
    (huv : u ++ ')' :: r = V ++ [')']) : u = V ∧ r = [] := by
  have hcount := congrArg (List.count ')') huv
  simp only [List.count_append, List.count_cons_self, List.count_nil] at hcount
  have hV0 : List.count ')' V = 0 := List.count_eq_zero.mpr hV
  rw [hV0] at hcount
  have hu0 : ')' ∉ u := List.count_eq_zero.mp (by omega)
  have huv2 : u ++ ')' :: r = V ++ ')' :: [] := huv
  exact first_occurrence huv2 hu0 hV

theorem matchVer_eval {V : Str} (hV1 : V.all notNl = true) (hV2 : ')' ∉ V) :
    matchVer (V ++ [')']) = some V := by
  unfold matchVer
  refine Eq.trans (findSome?_dotStar_eq _ V [')'] hV1 ?_) ?_
  · intro p hp hne
    cases hp2 : p.2 with
    | nil => simp [hp2]
    | cons c t =>
      by_cases hc : c = ')'
      · exfalso
        subst hc
        rw [hp2] at hp
        have hpu := paren_unique hV2 hp
        exact hne (by rw [hp2, hpu.2])
      · simp [hp2, beqFalseOfNe hc]
  · simp

theorem matchActionOn_eval {word ver : Str} {c0 : Char} {tl : Str}
    (hw0 : word ≠ []) (hwa : word.all isAlphaCh = true)
    (hc0 : isNameHead c0 = true) (htl : tl.all isNameTail = true)
    (hv1 : ver.all notNl = true) (hv2 : ')' ∉ ver) :
    matchActionOn (word ++ (' ' :: c0 :: (tl ++ (' ' :: '(' :: (ver ++ [')'])))))
      = some (word, c0 :: tl, ver) := by
  have h1 : (word ++ (' ' :: c0 :: (tl ++ (' ' :: '(' :: (ver ++ [')']))))).takeWhile isAlphaCh
      = word := takeWhile_run _ _ hwa (by decide)
  have h2 : (word ++ (' ' :: c0 :: (tl ++ (' ' :: '(' :: (ver ++ [')']))))).drop word.length
      = ' ' :: c0 :: (tl ++ (' ' :: '(' :: (ver ++ [')']))) := List.drop_left word _
  have h3 : (tl ++ (' ' :: '(' :: (ver ++ [')']))).takeWhile isNameTail = tl :=
    takeWhile_run _ _ htl (by decide)
  have h4 : (tl ++ (' ' :: '(' :: (ver ++ [')']))).drop tl.length
      = ' ' :: '(' :: (ver ++ [')']) := List.drop_left tl _
  unfold matchActionOn
  rw [h1, h2]
  rw [if_neg (by simp [List.isEmpty_iff, hw0])]
  simp only [h3, h4, beq_self_eq_true, hc0, Bool.and_self, if_true, Bool.true_and, if_pos]
  rw [matchVer_eval hv1 hv2]
  rfl

theorem matchBody_eval {A word ver : Str} {c0 : Char} {tl : Str}
    (hA1 : A.all notNl = true) (hA2 : ']' ∉ A)
    (hw0 : word ≠ []) (hwa : word.all isAlphaCh = true)
    (hc0 : isNameHead c0 = true) (htl : tl.all isNameTail = true)
    (hv1 : ver.all notNl = true) (hv2 : ')' ∉ ver) (hv3 : ']' ∉ ver) :
    matchBody (A ++ (alpmSep ++ (word ++ (' ' :: c0 :: (tl ++ (' ' :: '(' :: (ver ++ [')'])))))))
      = some ⟨A, word, c0 :: tl, ver⟩ := by
  have hTne : ']' ∉ word ++ (' ' :: c0 :: (tl ++ (' ' :: '(' :: (ver ++ [')'])))) := by
    intro hm
    simp only [List.mem_append, List.mem_cons, List.mem_singleton] at hm
    rcases hm with h | h | h | h | h | h | h | h <;>
      first
      | exact notMem_of_all_class hwa (by decide) h
      | exact notMem_of_all_class htl (by decide) h
      | exact hv3 h
      | exact absurd h (by decide)
      | exact (class_ne hc0 (by decide)) h.symm
  unfold matchBody
  refine Eq.trans (findSome?_dotStar_eq _ A
    (alpmSep ++ (word ++ (' ' :: c0 :: (tl ++ (' ' :: '(' :: (ver ++ [')'])))))) hA1 ?_) ?_
  · intro p hp hne
    cases hd : dropLead alpmSep p.2 with
    | none => simp [hd]
    | some r =>
      exfalso
      have hp2 : p.2 = alpmSep ++ r := dropLead_eq_some_iff.mp hd
      rw [hp2] at hp hne
      have hsu := sep_unique hA2 hTne hp
      exact hne (by rw [hsu.2])
  · have hds : dropLead alpmSep
        (alpmSep ++ (word ++ (' ' :: c0 :: (tl ++ (' ' :: '(' :: (ver ++ [')']))))))
        = some (word ++ (' ' :: c0 :: (tl ++ (' ' :: '(' :: (ver ++ [')']))))) :=
      dropLead_eq_some_iff.mpr rfl
    simp only [hds, matchActionOn_eval hw0 hwa hc0 htl hv1 hv2]
    rfl

/-! ### Digits, padding and the `%Y-%m-%d %H:%M` display -/

theorem digitCh_isDigit : ∀ n, isDigitCh (digitCh n) = true := by
  intro n
  rcases n with _|_|_|_|_|_|_|_|_|n <;>
    first
    | decide
    | exact (by decide : isDigitCh '9' = true)

theorem digitCh_val : ∀ n, n < 10 → (digitCh n).toNat - 48 = n := by
  intro n hn
  rcases n with _|_|_|_|_|_|_|_|_|_|n <;> first | decide | omega

theorem digit_notNl : ∀ n, notNl (digitCh n) = true :=
  fun n => notNl_of_ne (class_ne (digitCh_isDigit n) (by decide))

theorem takeDigits_pad2 (n : Nat) (hn : n < 100) (rest : Str) :
    takeDigits 2 (pad2 n ++ rest) = some (n, rest) := by
  have h10 : n / 10 < 10 := by omega
  have h1 : n % 10 < 10 := by omega
  simp only [pad2, List.cons_append, List.nil_append, takeDigits, takeDigitsAux,
    digitCh_isDigit, if_true, digitCh_val _ h10, digitCh_val _ h1]
  have heq : n / 10 * 10 + n % 10 = n := by omega
  rw [heq]

theorem takeDigits_pad4 (n : Nat) (hn : n < 10000) (rest : Str) :
    takeDigits 4 (pad4 n ++ rest) = some (n, rest) := by
  have ha : n / 1000 % 10 < 10 := by omega
  have hb : n / 100 % 10 < 10 := by omega
  have hc : n / 10 % 10 < 10 := by omega
  have hd : n % 10 < 10 := by omega
  simp only [pad4, List.cons_append, List.nil_append, takeDigits, takeDigitsAux,
    digitCh_isDigit, if_true, digitCh_val _ ha, digitCh_val _ hb, digitCh_val _ hc,
    digitCh_val _ hd]
  have heq : ((n / 1000 % 10 * 10 + n / 100 % 10) * 10 + n / 10 % 10) * 10 + n % 10 = n := by
    omega
  rw [heq]

theorem daysInMonth_le (y m : Nat) : daysInMonth y m ≤ 31 := by
  unfold daysInMonth
  split
  · split <;> decide
  · split <;> decide

theorem dtRenderable_bounds {dt : DT} (h : dtRenderable dt) :
    dt.year.toNat < 10000 ∧ dt.month < 100 ∧ dt.day < 100 ∧ dt.hour < 100 ∧ dt.minute < 100 := by
  obtain ⟨h0, h1, h2, h3⟩ := h
  simp only [validYMD, Bool.and_eq_true, decide_eq_true_eq] at h2
  simp only [validHMS, Bool.and_eq_true, decide_eq_true_eq] at h3
  have hd := daysInMonth_le dt.year.toNat dt.month
  refine ⟨by omega, by omega, by omega, by omega, by omega⟩

theorem parseYMD_fmt (dt : DT) (h : dtRenderable dt) :
    parseYMD (fmtDT dt)
      = some (dt.year.toNat, dt.month, dt.day,
          ' ' :: (pad2 dt.hour ++ ':' :: pad2 dt.minute)) := by
  obtain ⟨hy, hmo, hda, _, _⟩ := dtRenderable_bounds h
  unfold parseYMD fmtDT
  rw [show pad4 dt.year.toNat ++ ['-'] ++ pad2 dt.month ++ ['-'] ++ pad2 dt.day ++ [' ']
        ++ pad2 dt.hour ++ [':'] ++ pad2 dt.minute
      = pad4 dt.year.toNat ++ ('-' :: (pad2 dt.month
          ++ ('-' :: (pad2 dt.day ++ (' ' :: (pad2 dt.hour ++ ':' :: pad2 dt.minute))))))
    from by simp [List.append_assoc]]
  rw [takeDigits_pad4 _ hy]
  simp only [expectCh, beq_self_eq_true, if_true]
  rw [takeDigits_pad2 _ hmo]
  simp only [expectCh, beq_self_eq_true, if_true]
  rw [takeDigits_pad2 _ hda]

theorem parseIsoDT_fmt (dt : DT) (h : dtRenderable dt) : parseIsoDT (fmtDT dt) = none := by
  unfold parseIsoDT
  rw [parseYMD_fmt dt h]
  simp [expectCh]

theorem parseNaiveDT_fmt (dt : DT) (h : dtRenderable dt) :
    parseNaiveDT (fmtDT dt) = some dt.truncMin := by
  obtain ⟨hy, hmo, hda, hh, hmi⟩ := dtRenderable_bounds h
  obtain ⟨h0, h1, h2, h3⟩ := h
  unfold parseNaiveDT
  rw [parseYMD_fmt dt ⟨h0, h1, h2, h3⟩]
  simp only [expectCh, beq_self_eq_true, if_true]
  unfold parseHM
  rw [takeDigits_pad2 _ hh]
  simp only [expectCh, beq_self_eq_true, if_true]
  rw [show pad2 dt.minute = pad2 dt.minute ++ [] from (List.append_nil _).symm,
    takeDigits_pad2 _ hmi]
  simp only [List.isEmpty_nil, h2, h3, Bool.and_self, if_true, DT.truncMin]
  rw [Int.toNat_of_nonneg h0]

theorem fmtDT_all_good (dt : DT) :
    (fmtDT dt).all (fun c => isDigitCh c || (c == '-') || (c == ' ') || (c == ':')) = true := by
  simp [fmtDT, pad2, pad4, digitCh_isDigit]

theorem good_notNl :
    ∀ c, (isDigitCh c || (c == '-') || (c == ' ') || (c == ':')) = true → notNl c = true := by
  intro c h
  simp only [Bool.or_eq_true] at h
  rcases h with ((h | h) | h) | h
  · exact notNl_of_ne (class_ne h (by decide))
  · rw [eq_of_beq h]; decide
  · rw [eq_of_beq h]; decide
  · rw [eq_of_beq h]; decide

theorem fmtDT_all_notNl (dt : DT) : (fmtDT dt).all notNl = true :=
  all_weaken (fmtDT_all_good dt) good_notNl

theorem fmtDT_no_rb (dt : DT) : ']' ∉ fmtDT dt :=
  notMem_of_all_class (fmtDT_all_good dt) (by decide)

/-! ### The version-field matcher on rendered version text -/

theorem versionCaptures_token {t : Str} (h1 : t ≠ []) (h2 : t.all isVerCh = true) :
    versionCaptures t = some (t, none) := by
  unfold versionCaptures
  rw [List.takeWhile_eq_self_iff.mpr (List.all_eq_true.mp h2)]
  rw [if_neg (by simp [List.isEmpty_iff, h1])]
  rw [List.drop_length]
  rfl

theorem versionCaptures_pair {p q : Str} (hp1 : p ≠ []) (hp2 : p.all isVerCh = true)
    (hq1 : q ≠ []) (hq2 : q.all isVerCh = true) :
    versionCaptures (p ++ (arrowSep ++ q)) = some (p, some q) := by
  unfold versionCaptures
  have h1 : (p ++ (arrowSep ++ q)).takeWhile isVerCh = p :=
    takeWhile_run ' ' (['-', '>', ' '] ++ q) hp2 (by decide)
  rw [h1, if_neg (by simp [List.isEmpty_iff, hp1]), List.drop_left,
    dropLead_eq_some_iff.mpr rfl]
  simp [List.isEmpty_iff, hq1, hq2]

theorem actionFromStr_word : ∀ a : PacmanAction, actionFromStr a.word = some a := by
  intro a
  cases a <;> decide

theorem word_ne_nil : ∀ a : PacmanAction, a.word ≠ [] := by
  intro a
  cases a <;> decide

theorem word_all_alpha : ∀ a : PacmanAction, a.word.all isAlphaCh = true := by
  intro a
  cases a <;> decide

/-! ### Shape of successful captures -/

theorem matchActionOn_some {cs : Str} {t : Str × Str × Str} (h : matchActionOn cs = some t) :
    t.1 ≠ [] ∧ t.1.all isAlphaCh = true ∧
      (∃ c0 tl, t.2.1 = c0 :: tl ∧ isNameHead c0 = true ∧ tl.all isNameTail = true) := by
  unfold matchActionOn at h
  split at h
  · cases h
  · next hne =>
    split at h
    · next sp c rest2 heq =>
      split at h
      · next hcond =>
        split at h
        · next sp2 op rest4 heq2 =>
          split at h
          · next hcond2 =>
            rcases Option.map_eq_some'.mp h with ⟨v, hv, rfl⟩
            refine ⟨ne_nil_of_not_isEmpty hne, List.all_takeWhile, ?_⟩
            exact ⟨c, rest2.takeWhile isNameTail, rfl,
              (Bool.and_eq_true_iff.mp hcond).2, List.all_takeWhile⟩
          · cases h
        · cases h
      · cases h
    · cases h

theorem matchBody_some {cs : Str} {caps : Caps} (h : matchBody cs = some caps) :
    caps.action ≠ [] ∧ caps.action.all isAlphaCh = true ∧
      (∃ c0 tl, caps.package = c0 :: tl ∧ isNameHead c0 = true ∧ tl.all isNameTail = true) := by
  unfold matchBody at h
  obtain ⟨p, hmem, hf⟩ := exists_of_findSome?_eq_some h
  cases hd : dropLead alpmSep p.2 with
  | none => rw [hd] at hf; cases hf
  | some rest =>
    rw [hd] at hf
    rcases Option.map_eq_some'.mp hf with ⟨t, ht, rfl⟩
    exact matchActionOn_some ht

theorem lineCaptures_some : ∀ {line : Str} {caps : Caps}, lineCaptures line = some caps →
    caps.action ≠ [] ∧ caps.action.all isAlphaCh = true ∧
      (∃ c0 tl, caps.package = c0 :: tl ∧ isNameHead c0 = true ∧ tl.all isNameTail = true)
  | [], caps, h => by cases h
  | c :: cs, caps, h => by
    unfold lineCaptures at h
    cases hb : (if c == '[' then matchBody cs else none) with
    | some caps2 =>
      rw [hb] at h
      simp only [Option.orElse] at h
      cases h
      split at hb
      · exact matchBody_some hb
      · cases hb
    | none =>
      rw [hb] at h
      simp only [Option.orElse] at h
      exact lineCaptures_some h

theorem versionCaptures_some {v lv : Str} {rv : Option Str}
    (h : versionCaptures v = some (lv, rv)) :
    lv = v.takeWhile isVerCh ∧ lv ≠ [] ∧ lv.all isVerCh = true ∧
      ∀ r2, rv = some r2 → r2 ≠ [] ∧ r2.all isVerCh = true := by
  unfold versionCaptures at h
  split at h
  · cases h
  · next hne =>
    have hne2 : v.takeWhile isVerCh ≠ [] := ne_nil_of_not_isEmpty hne
    split at h
    · split at h
      · next hcond =>
        cases h
        refine ⟨rfl, hne2, List.all_takeWhile, ?_⟩
        intro r2 hr2
        injection hr2 with hr2
        subst hr2
        rcases Bool.and_eq_true_iff.mp hcond with ⟨ha, hb⟩
        exact ⟨ne_nil_of_not_isEmpty (by simpa using ha), hb⟩
      · cases h
        exact ⟨rfl, hne2, List.all_takeWhile, by rintro r2 ⟨⟩⟩
    · cases h
      exact ⟨rfl, hne2, List.all_takeWhile, by rintro r2 ⟨⟩⟩

/-! ### Anatomy of a successful parse -/

theorem fromLine_ok_spec {line : Str} {globs : List Str} {off : Int} {ev : PackageChange}
    (h : fromLine line globs off = .ok ev) :
    ∃ caps lv rv, lineCaptures line = some caps ∧
      nameAccepted globs caps.package = true ∧
      actionFromStr caps.action = some ev.action ∧
      parsePacmanDateTime caps.datetime off = some ev.datetime ∧
      versionCaptures caps.version = some (lv, rv) ∧
      ev.name = caps.package ∧
      ((ev.action = .installed ∧ ev.previous_version = none ∧ ev.current_version = some lv) ∨
       ((ev.action = .upgraded ∨ ev.action = .downgraded) ∧ ∃ rv2, rv = some rv2 ∧
         ev.previous_version = some lv ∧ ev.current_version = some rv2) ∨
       (ev.action = .removed ∧ ev.previous_version = some lv ∧ ev.current_version = none)) := by
  unfold fromLine fromLineFull at h
  cases hcaps : lineCaptures line with
  | none => simp only [hcaps] at h; cases h
  | some caps =>
    simp only [hcaps] at h
    cases hacc : nameAccepted globs caps.package with
    | false => simp only [hacc, Bool.not_false, if_true] at h; cases h
    | true =>
      simp only [hacc, Bool.not_true, Bool.false_eq_true, if_false] at h
      cases hact : actionFromStr caps.action with
      | none => simp only [hact] at h; cases h
      | some act =>
        simp only [hact] at h
        cases hpdt : parsePacmanDateTime caps.datetime off with
        | none => simp only [hpdt] at h; cases h
        | some pdt =>
          simp only [hpdt] at h
          cases hvc : versionCaptures caps.version with
          | none => simp only [hvc] at h; cases h
          | some lvrv =>
            obtain ⟨lv, rv⟩ := lvrv
            simp only [hvc] at h
            cases act with
            | installed =>
              injection h with h2
              subst h2
              exact ⟨caps, lv, rv, rfl, hacc, hact, hpdt, hvc, rfl, Or.inl ⟨rfl, rfl, rfl⟩⟩
            | upgraded =>
              cases rv with
              | none => cases h
              | some rv2 =>
                injection h with h2
                subst h2
                exact ⟨caps, lv, some rv2, rfl, hacc, hact, hpdt, hvc, rfl,
                  Or.inr (Or.inl ⟨Or.inl rfl, rv2, rfl, rfl, rfl⟩)⟩
            | downgraded =>
              cases rv with
              | none => cases h
              | some rv2 =>
                injection h with h2
                subst h2
                exact ⟨caps, lv, some rv2, rfl, hacc, hact, hpdt, hvc, rfl,
                  Or.inr (Or.inl ⟨Or.inr rfl, rv2, rfl, rfl, rfl⟩)⟩
            | removed =>
              injection h with h2
              subst h2
              exact ⟨caps, lv, rv, rfl, hacc, hact, hpdt, hvc, rfl,
                Or.inr (Or.inr ⟨rfl, rfl, rfl⟩)⟩

theorem diagMsg_ne_nil : ∀ d, diagMsg d ≠ [] := by
  intro d h
  unfold diagMsg at h
  rcases List.append_eq_nil.mp h with ⟨h1, _⟩
  rcases List.append_eq_nil.mp h1 with ⟨h2, _⟩
  exact absurd h2 (by decide)

/-! ### The claims -/

/-- C1: parsing the scenario line
`[2024-03-01T10:00:00+0000] [ALPM] upgraded vim (9.0.1 -> 9.0.2)` with an
empty pattern list succeeds and yields exactly one event, with
action Upgraded, name `vim`, previous version `9.0.1`, current version
`9.0.2`; rendering it in plain (non-terminal) mode produces exactly
`[2024-03-01 10:00] upgraded vim (9.0.1 -> 9.0.2)` followed by a newline.
The process-local zone is taken at UTC (offset 0), the zone in which the
specification states the expected output for this `+0000` input. -/
theorem c1_scenario_parse_and_render :
    fromLine c1Line [] 0 = .ok c1Event ∧
    processLines [c1Line] [] 0 = [c1Event] ∧
    c1Event.action = .upgraded ∧ c1Event.name = "vim".toList ∧
    c1Event.previous_version = some "9.0.1".toList ∧
    c1Event.current_version = some "9.0.2".toList ∧
    renderPlain c1Event = c1Out :=
  ⟨by decide, by decide, rfl, rfl, rfl, rfl, by decide⟩

/-- C2: every event built by the line parser satisfies the action-specific
version-presence rule: Installed has only a current version, Upgraded and
Downgraded have both, Removed has only a previous version. -/
theorem c2_version_presence :
    ∀ line globs off ev, fromLine line globs off = .ok ev →
      (ev.action = .installed →
        ev.previous_version = none ∧ ∃ v, ev.current_version = some v) ∧
      (ev.action = .upgraded →
        (∃ v, ev.previous_version = some v) ∧ ∃ v, ev.current_version = some v) ∧
      (ev.action = .downgraded →
        (∃ v, ev.previous_version = some v) ∧ ∃ v, ev.current_version = some v) ∧
      (ev.action = .removed →
        (∃ v, ev.previous_version = some v) ∧ ev.current_version = none) := by
  intro line globs off ev h
  obtain ⟨caps, lv, rv, _, _, _, _, _, _, hfields⟩ := fromLine_ok_spec h
  rcases hfields with ⟨ha, hp, hc⟩ | ⟨ha | ha, rv2, hrv, hp, hc⟩ | ⟨ha, hp, hc⟩ <;>
    simp [ha, hp, hc]

/-- Witness for C2 at the concrete scenario line. -/
theorem c2_version_presence_witness :
    fromLine c1Line [] 0 = .ok c1Event ∧
      (c1Event.action = .upgraded →
        (∃ v, c1Event.previous_version = some v) ∧ ∃ v, c1Event.current_version = some v) :=
  ⟨by decide, (c2_version_presence c1Line [] 0 c1Event (by decide)).2.1⟩

/-- C3: a line whose version field lacks a token its action requires (no
first token at all, or no ` -> `-second token for `upgraded`/`downgraded`)
is rejected whole: `from_line` returns an error and never an event. -/
theorem c3_missing_version_rejects :
    ∀ line globs off caps act, lineCaptures line = some caps →
      actionFromStr caps.action = some act →
      requiredVersionMissing act caps.version →
      (∃ e, fromLine line globs off = .error e) ∧
        ∀ ev, fromLine line globs off ≠ .ok ev := by
  intro line globs off caps act hcaps hact hmiss
  have key : ∃ e, fromLine line globs off = .error e := by
    unfold fromLine fromLineFull
    simp only [hcaps]
    cases hacc : nameAccepted globs caps.package with
    | false => exact ⟨.nameMismatch, by simp [hacc]⟩
    | true =>
      simp only [hacc, Bool.not_true, Bool.false_eq_true, if_false, hact]
      cases hpdt : parsePacmanDateTime caps.datetime off with
      | none => simp only [hpdt]; exact ⟨.unparseableTimestamp, rfl⟩
      | some pdt =>
        simp only [hpdt]
        cases act with
        | installed =>
          simp only [requiredVersionMissing] at hmiss
          simp only [hmiss]
          exact ⟨.noCapture, rfl⟩
        | upgraded =>
          simp only [requiredVersionMissing] at hmiss
          rcases hmiss with hm | ⟨t1, hm⟩
          · simp only [hm]; exact ⟨.noCapture, rfl⟩
          · simp only [hm]; exact ⟨.missingVersion, rfl⟩
        | downgraded =>
          simp only [requiredVersionMissing] at hmiss
          rcases hmiss with hm | ⟨t1, hm⟩
          · simp only [hm]; exact ⟨.noCapture, rfl⟩
          · simp only [hm]; exact ⟨.missingVersion, rfl⟩
        | removed =>
          simp only [requiredVersionMissing] at hmiss
          simp only [hmiss]
          exact ⟨.noCapture, rfl⟩
  refine ⟨key, ?_⟩
  obtain ⟨e, he⟩ := key
  intro ev hok
  rw [he] at hok
  cases hok

/-- Witness for C3: the `upgraded` line `c3Line` with a single version token
is rejected. -/
theorem c3_missing_version_rejects_witness :
    ∃ e, fromLine c3Line [] 0 = .error e :=
  (c3_missing_version_rejects c3Line [] 0
    ⟨"2024-03-01 10:00".toList, "upgraded".toList, "vim".toList, "9.0.1".toList⟩
    .upgraded (by decide) (by decide)
    (Or.inr ⟨"9.0.1".toList, by decide⟩)).1

/-- C4: the timestamp field is parsed by trying the ISO-8601 format with
numeric offset first (producing a timezone-aware value converted to the
local zone), then the naive `YYYY-MM-DD HH:MM` format, and the line is
rejected when both fail; with concrete instances of each of the three
outcomes. -/
theorem c4_timestamp_fallback_order :
    (∀ s off,
      (∃ dt tz, parseIsoDT s = some (dt, tz) ∧
        parsePacmanDateTime s off = some (.withTimezone (toLocalWall dt tz off))) ∨
      (parseIsoDT s = none ∧ ∃ dt, parseNaiveDT s = some dt ∧
        parsePacmanDateTime s off = some (.withoutTimezone dt)) ∨
      (parseIsoDT s = none ∧ parseNaiveDT s = none ∧ parsePacmanDateTime s off = none)) ∧
    parseIsoDT "2024-03-01T10:00:00+0000".toList = some (⟨2024, 3, 1, 10, 0, 0⟩, 0) ∧
    parseIsoDT "2024-03-01 10:00".toList = none ∧
    parseNaiveDT "2024-03-01 10:00".toList = some ⟨2024, 3, 1, 10, 0, 0⟩ ∧
    fromLine "[2024-03-01 99:99] [ALPM] installed htop (3.3.0)".toList [] 0
      = .error .unparseableTimestamp := by
  refine ⟨?_, by decide, by decide, by decide, by decide⟩
  intro s off
  unfold parsePacmanDateTime
  cases hiso : parseIsoDT s with
  | some p =>
    obtain ⟨dt, tz⟩ := p
    exact Or.inl ⟨dt, tz, rfl, rfl⟩
  | none =>
    cases hnai : parseNaiveDT s with
    | some dt => exact Or.inr (Or.inl ⟨rfl, dt, rfl, rfl⟩)
    | none => exact Or.inr (Or.inr ⟨rfl, rfl, rfl⟩)

/-- C5: with an empty pattern list every name is accepted; with the patterns
`foo` and `ba*`, the names `foo`, `bar`, `baz` are accepted and `food`,
`xfoo` are rejected. -/
theorem c5_name_filter_globs :
    (∀ name, nameAccepted [] name = true) ∧
    nameAccepted fooBaGlobs "foo".toList = true ∧
    nameAccepted fooBaGlobs "bar".toList = true ∧
    nameAccepted fooBaGlobs "baz".toList = true ∧
    nameAccepted fooBaGlobs "food".toList = false ∧
    nameAccepted fooBaGlobs "xfoo".toList = false :=
  ⟨fun _ => rfl, by decide, by decide, by decide, by decide, by decide⟩

/-- C6: the main loop drops an event exactly when a set `--before` bound is
strictly below the event's local calendar date or a set `--after` bound is
strictly above it; an absent bound imposes no constraint.  An event dated
2024-01-15 passes `--before 2024-01-15 --after 2024-01-15`, fails
`--before 2024-01-14`, and fails `--after 2024-01-16`. -/
theorem c6_date_filter_inclusive :
    (∀ (d : Date) (before after : Option Date), keepChange d before after = false ↔
      ((∃ b, before = some b ∧ dateLtb b d = true) ∨
       (∃ a, after = some a ∧ dateLtb d a = true))) ∧
    keepChange c6Event.date (some ⟨2024, 1, 15⟩) (some ⟨2024, 1, 15⟩) = true ∧
    keepChange c6Event.date (some ⟨2024, 1, 14⟩) none = false ∧
    keepChange c6Event.date none (some ⟨2024, 1, 16⟩) = false ∧
    filterByDate [c6Event] (some ⟨2024, 1, 15⟩) (some ⟨2024, 1, 15⟩) = [c6Event] ∧
    filterByDate [c6Event] (some ⟨2024, 1, 14⟩) none = [] := by
  refine ⟨?_, by decide, by decide, by decide, by decide, by decide⟩
  intro d before after
  cases before <;> cases after <;> simp [keepChange]
  rename_i b a
  cases hb : dateLtb b d <;> simp [hb]

/-- C9: a mid-stream read error stops line iteration: the lines after the
failing read are discarded, `get_changes` still returns `Ok` with the
changes collected so far, so the run ends without a fatal error. -/
theorem c9_read_error_truncates :
    ∀ (pre post : List Str) (globs : List Str) (off : Int),
      getChanges (pre.map Except.ok ++ Except.error () :: post.map Except.ok) globs off =
        getChanges (pre.map Except.ok) globs off ∧
      ∃ cs, getChanges (pre.map Except.ok ++ Except.error () :: post.map Except.ok) globs off
        = .ok cs := by
  intro pre post globs off
  have h : mapWhileOk (pre.map Except.ok ++ Except.error () :: post.map Except.ok)
      = mapWhileOk (pre.map Except.ok) := by
    induction pre with
    | nil => rfl
    | cons x xs ih => simpa [mapWhileOk] using ih
  exact ⟨by unfold getChanges; rw [h], _, rfl⟩

/-- C10: for an `installed` or `removed` line, parsing succeeds as soon as
the version field starts with one version token, whatever follows it; the
extracted token is the leading token run.  Concretely,
`installed htop (3.3.0 -> 3.4.0)` parses with current version `3.3.0`. -/
theorem c10_extra_version_content_ignored :
    (∀ v : Str, v.takeWhile isVerCh ≠ [] →
      ∃ r, versionCaptures v = some (v.takeWhile isVerCh, r)) ∧
    (∀ line globs off caps act pdt, lineCaptures line = some caps →
      nameAccepted globs caps.package = true →
      actionFromStr caps.action = some act →
      (act = .installed ∨ act = .removed) →
      parsePacmanDateTime caps.datetime off = some pdt →
      caps.version.takeWhile isVerCh ≠ [] →
      ∃ ev, fromLine line globs off = .ok ev ∧
        (act = .installed → ev.current_version = some (caps.version.takeWhile isVerCh))) ∧
    fromLine c10Line [] 0 = .ok c10Event := by
  have hfirst : ∀ v : Str, v.takeWhile isVerCh ≠ [] →
      ∃ r, versionCaptures v = some (v.takeWhile isVerCh, r) := by
    intro v hne
    unfold versionCaptures
    rw [if_neg (by simp [List.isEmpty_iff, hne])]
    cases hD : dropLead arrowSep (v.drop (v.takeWhile isVerCh).length) with
    | none => exact ⟨none, rfl⟩
    | some r2 =>
      by_cases hc : (!r2.isEmpty && r2.all isVerCh) = true
      · exact ⟨some r2, by simp [hc]⟩
      · exact ⟨none, by simp [hc]⟩
  refine ⟨hfirst, ?_, by decide⟩
  intro line globs off caps act pdt hcaps hacc hact hik hpdt hne
  obtain ⟨r, hvc⟩ := hfirst caps.version hne
  unfold fromLine fromLineFull
  simp only [hcaps, hacc, Bool.not_true, Bool.false_eq_true, if_false, hact, hpdt, hvc]
  rcases hik with rfl | rfl
  · exact ⟨_, rfl, fun _ => rfl⟩
  · exact ⟨_, rfl, fun h => nomatch h⟩

/-- Witness for C10 at the concrete `installed` line with trailing version
content. -/
theorem c10_extra_version_content_ignored_witness :
    ∃ ev, fromLine c10Line [] 0 = .ok ev ∧
      (PacmanAction.installed = .installed →
        ev.current_version = some ("3.3.0 -> 3.4.0".toList.takeWhile isVerCh)) :=
  c10_extra_version_content_ignored.2.1 c10Line [] 0
    ⟨"2024-03-01 10:00".toList, "installed".toList, "htop".toList, "3.3.0 -> 3.4.0".toList⟩
    .installed (.withoutTimezone ⟨2024, 3, 1, 10, 0, 0⟩)
    (by decide) (by decide) (by decide) (Or.inl rfl) (by decide) (by decide)

/-- C7 counterexample: the claim that no per-line failure surfaces an error
message on any output stream is false — a line whose timestamp field parses
with neither format is skipped, but `from_line` prints
`Unable to parse datetime from ...` to stdout (the `println!` in
src/paclog.rs line 114). -/
theorem c7_no_message_counterexample :
    fromLine c7BadLine [] 0 = .error .unparseableTimestamp ∧
    (fromLineFull c7BadLine [] 0).2 = [diagMsg "garbage".toList] ∧
    (fromLineFull c7BadLine [] 0).2 ≠ [] :=
  ⟨by decide, by decide, by decide⟩

/-- C7 as amended: every per-line failure is recovered locally — the line is
skipped and processing continues with the remaining lines — and no output is
printed, except that an unparseable timestamp prints one diagnostic line to
stdout (that is exactly the failure kind that prints). -/
theorem c7_skip_continue_and_diagnostic :
    ∀ line globs off,
      (∀ rest, processLines (line :: rest) globs off =
        match fromLine line globs off with
        | .ok ev => ev :: processLines rest globs off
        | .error _ => processLines rest globs off) ∧
      ((fromLineFull line globs off).2 = [] ↔
        fromLine line globs off ≠ .error .unparseableTimestamp) := by
  intro line globs off
  constructor
  · intro rest
    unfold processLines
    rw [List.filterMap_cons]
    cases h : fromLine line globs off with
    | ok ev => simp [h, Except.toOption]
    | error e => simp [h, Except.toOption]
  · unfold fromLine fromLineFull
    cases hcaps : lineCaptures line with
    | none => simp
    | some caps =>
      cases hacc : nameAccepted globs caps.package with
      | false => simp [hacc]
      | true =>
        simp only [hacc, Bool.not_true, Bool.false_eq_true, if_false]
        cases hact : actionFromStr caps.action with
        | none => simp
        | some act =>
          cases hpdt : parsePacmanDateTime caps.datetime off with
          | none => simp [diagMsg_ne_nil]
          | some pdt =>
            cases hvc : versionCaptures caps.version with
            | none => simp
            | some lvrv =>
              obtain ⟨lv, rv⟩ := lvrv
              cases act with
              | installed => simp
              | upgraded => cases rv with
                | none => simp
                | some rv2 => simp
              | downgraded => cases rv with
                | none => simp
                | some rv2 => simp
              | removed => simp

/-! ### Re-parsing a rendered line once the `[ALPM]` tag is restored -/

theorem lineCaptures_retagged {A word V : Str} {c0 : Char} {tl : Str}
    (hA1 : A.all notNl = true) (hA2 : ']' ∉ A)
    (hw0 : word ≠ []) (hwa : word.all isAlphaCh = true)
    (hc0 : isNameHead c0 = true) (htl : tl.all isNameTail = true)
    (hV1 : V.all notNl = true) (hV2 : ')' ∉ V) (hV3 : ']' ∉ V) :
    lineCaptures
        ('[' :: (A ++ (alpmSep ++ (word ++ (' ' :: c0 :: (tl ++ (' ' :: '(' :: (V ++ [')']))))))))
      = some ⟨A, word, c0 :: tl, V⟩ := by
  have hmb := matchBody_eval hA1 hA2 hw0 hwa hc0 htl hV1 hV2 hV3
  unfold lineCaptures
  simp [hmb, Option.orElse]

theorem fromLine_retag_eval (a : PacmanAction) (off2 : Int) {A V : Str} {c0 : Char} {tl : Str}
    {dtn : DT} {lv : Str} {rv : Option Str}
    (hA1 : A.all notNl = true) (hA2 : ']' ∉ A)
    (hc0 : isNameHead c0 = true) (htl : tl.all isNameTail = true)
    (hV1 : V.all notNl = true) (hV2 : ')' ∉ V) (hV3 : ']' ∉ V)
    (hiso : parseIsoDT A = none) (hnai : parseNaiveDT A = some dtn)
    (hvcV : versionCaptures V = some (lv, rv)) :
    fromLine
        ('[' :: (A ++ (alpmSep ++ (a.word ++ (' ' :: c0 :: (tl ++ (' ' :: '(' :: (V ++ [')']))))))))
        [] off2
      = (match a with
         | .installed => .ok ⟨c0 :: tl, .withoutTimezone dtn, .installed, none, some lv⟩
         | .upgraded =>
           match rv with
           | some rv2 => .ok ⟨c0 :: tl, .withoutTimezone dtn, .upgraded, some lv, some rv2⟩
           | none => .error .missingVersion
         | .downgraded =>
           match rv with
           | some rv2 => .ok ⟨c0 :: tl, .withoutTimezone dtn, .downgraded, some lv, some rv2⟩
           | none => .error .missingVersion
         | .removed => .ok ⟨c0 :: tl, .withoutTimezone dtn, .removed, some lv, none⟩) := by
  unfold fromLine fromLineFull
  rw [lineCaptures_retagged hA1 hA2 (word_ne_nil a) (word_all_alpha a) hc0 htl hV1 hV2 hV3]
  simp only [nameAccepted, List.isEmpty_nil, Bool.true_or, Bool.not_true, Bool.false_eq_true,
    if_false, actionFromStr_word]
  unfold parsePacmanDateTime
  rw [hiso, hnai]
  simp only [hvcV]
  cases a with
  | installed => rfl
  | upgraded => cases rv <;> rfl
  | downgraded => cases rv <;> rfl
  | removed => rfl

/-- C8 counterexample: the round-trip fails as claimed.  A successfully
parsed event, rendered without color, does not re-parse: `print` writes
`[<ts>] <action> <name> (<versions>)` without the `[ALPM]` tag that
`PACKAGE_CHANGE_REGEX` requires, so `from_line` rejects the rendered text
(with or without its trailing newline). -/
theorem c8_render_reparse_fails :
    fromLine c1Line [] 0 = .ok c1Event ∧
    fromLine (renderNoNl c1Event) [] 0 = .error .noCapture ∧
    fromLine (renderPlain c1Event) [] 0 = .error .noCapture :=
  ⟨by decide, by decide, by decide⟩

/-- C8 as amended: rendering drops the `[ALPM]` tag, so the rendered text
itself never re-parses; re-inserting ` [ALPM]` after the timestamp bracket
(`renderRetagged`), re-parsing recovers the same name, action and version
fields, with the timestamp reduced to minute precision (for wall times the
fixed-width display renders faithfully: a valid calendar date with a
four-digit year). -/
theorem c8_retagged_roundtrip :
    ∀ line globs off off2 ev, fromLine line globs off = .ok ev →
      dtRenderable ev.datetime.wall →
      fromLine (renderRetagged ev) [] off2 =
        .ok ⟨ev.name, .withoutTimezone ev.datetime.wall.truncMin, ev.action,
          ev.previous_version, ev.current_version⟩ := by
  intro line globs off off2 ev h hr
  obtain ⟨caps, lv, rv, hcaps, hacc, hact, hpdt, hvc, hname, hfields⟩ := fromLine_ok_spec h
  obtain ⟨c0, tl, hpkg, hc0, htl⟩ := (lineCaptures_some hcaps).2.2
  obtain ⟨_, hlv1, hlv2, hrvf⟩ := versionCaptures_some hvc
  have hA1 := fmtDT_all_notNl ev.datetime.wall
  have hA2 := fmtDT_no_rb ev.datetime.wall
  have hiso := parseIsoDT_fmt ev.datetime.wall hr
  have hnai := parseNaiveDT_fmt ev.datetime.wall hr
  have hlvN : lv.all notNl = true := all_weaken hlv2 verCh_notNl
  have hlvP : ')' ∉ lv := notMem_of_all_class hlv2 (by decide)
  have hlvB : ']' ∉ lv := notMem_of_all_class hlv2 (by decide)
  rcases hfields with ⟨ha, hp, hc⟩ | ⟨ha2, rv2, hrv2, hp, hc⟩ | ⟨ha, hp, hc⟩
  · -- Installed
    have hVd : versionDisplay ev = lv := by simp [versionDisplay, ha, hc]
    have hre : renderRetagged ev
        = '[' :: (fmtDT ev.datetime.wall ++ (alpmSep ++ (ev.action.word
            ++ (' ' :: c0 :: (tl ++ (' ' :: '(' :: (lv ++ [')']))))))) := by
      simp [renderRetagged, hVd, hname, hpkg, List.append_assoc]
    rw [hre, ha]
    rw [fromLine_retag_eval .installed off2 hA1 hA2 hc0 htl hlvN hlvP hlvB hiso hnai
      (versionCaptures_token hlv1 hlv2)]
    rw [hname, hpkg, hp, hc]
  · -- Upgraded or Downgraded
    obtain ⟨hrvne, hrvall⟩ := hrvf rv2 hrv2
    have hrvN : rv2.all notNl = true := all_weaken hrvall verCh_notNl
    have hrvP : ')' ∉ rv2 := notMem_of_all_class hrvall (by decide)
    have hrvB : ']' ∉ rv2 := notMem_of_all_class hrvall (by decide)
    have hVall : (lv ++ (arrowSep ++ rv2)).all notNl = true := by
      simp only [List.all_append, Bool.and_eq_true]
      exact ⟨hlvN, by decide, hrvN⟩
    have hVP : ')' ∉ lv ++ (arrowSep ++ rv2) := by
      intro hm
      rcases List.mem_append.mp hm with hm | hm
      · exact hlvP hm
      rcases List.mem_append.mp hm with hm | hm
      · simp [arrowSep] at hm
      · exact hrvP hm
    have hVB : ']' ∉ lv ++ (arrowSep ++ rv2) := by
      intro hm
      rcases List.mem_append.mp hm with hm | hm
      · exact hlvB hm
      rcases List.mem_append.mp hm with hm | hm
      · simp [arrowSep] at hm
      · exact hrvB hm
    have hvcp := versionCaptures_pair hlv1 hlv2 hrvne hrvall
    rcases ha2 with ha | ha
    · -- Upgraded
      have hVd : versionDisplay ev = lv ++ (arrowSep ++ rv2) := by
        simp [versionDisplay, ha, hp, hc, List.append_assoc]
      have hre : renderRetagged ev
          = '[' :: (fmtDT ev.datetime.wall ++ (alpmSep ++ (ev.action.word
              ++ (' ' :: c0 :: (tl ++ (' ' :: '(' :: ((lv ++ (arrowSep ++ rv2)) ++ [')']))))))) := by
        simp [renderRetagged, hVd, hname, hpkg, List.append_assoc]
      rw [hre, ha]
      rw [fromLine_retag_eval .upgraded off2 hA1 hA2 hc0 htl hVall hVP hVB hiso hnai hvcp]
      rw [hname, hpkg, hp, hc]
    · -- Downgraded
      have hVd : versionDisplay ev = lv ++ (arrowSep ++ rv2) := by
        simp [versionDisplay, ha, hp, hc, List.append_assoc]
      have hre : renderRetagged ev
          = '[' :: (fmtDT ev.datetime.wall ++ (alpmSep ++ (ev.action.word
              ++ (' ' :: c0 :: (tl ++ (' ' :: '(' :: ((lv ++ (arrowSep ++ rv2)) ++ [')']))))))) := by
        simp [renderRetagged, hVd, hname, hpkg, List.append_assoc]
      rw [hre, ha]
      rw [fromLine_retag_eval .downgraded off2 hA1 hA2 hc0 htl hVall hVP hVB hiso hnai hvcp]
      rw [hname, hpkg, hp, hc]
  · -- Removed
    have hVd : versionDisplay ev = lv := by simp [versionDisplay, ha, hp]
    have hre : renderRetagged ev
        = '[' :: (fmtDT ev.datetime.wall ++ (alpmSep ++ (ev.action.word
            ++ (' ' :: c0 :: (tl ++ (' ' :: '(' :: (lv ++ [')']))))))) := by
      simp [renderRetagged, hVd, hname, hpkg, List.append_assoc]
    rw [hre, ha]
    rw [fromLine_retag_eval .removed off2 hA1 hA2 hc0 htl hlvN hlvP hlvB hiso hnai
      (versionCaptures_token hlv1 hlv2)]
    rw [hname, hpkg, hp, hc]

/-- Witness for the amended C8 at the concrete scenario event. -/
theorem c8_retagged_roundtrip_witness :
    fromLine (renderRetagged c1Event) [] 0 =
      .ok ⟨"vim".toList, .withoutTimezone ⟨2024, 3, 1, 10, 0, 0⟩, .upgraded,
        some "9.0.1".toList, some "9.0.2".toList⟩ :=
  c8_retagged_roundtrip c1Line [] 0 0 c1Event (by decide)
    ⟨by decide, by decide, by decide, by decide⟩
